import Mathlib

/-!
# Verification of the Count-Min Sketch notebook

Shallow embedding of `src/mincountsketch.ipynb` (class `CountMinSketch`,
class `BinaryClassification`, class `classifier`) together with the
spec-modelled parts that the notebook only documents (point query,
dyadic range estimator).

The external hash primitive `mmh3.hash(val, seed)` (library `mmh3`,
imported by the notebook) is a deterministic function from a token and an
integer seed to a signed machine integer; it is modelled as an arbitrary
function `α → ℤ → ℤ` supplied as a parameter, with `α` the token type
(Python is duck-typed over tokens).  Numpy float counters only ever hold
integral values here (zeros incremented by 1), so counters are `ℤ`.
-/

namespace MinCountSketch

/-- A numpy 2-D array of shape `rows × cols`, entries read through a
function.  The column index is `ℤ` because the notebook indexes columns
with Python ints produced by `mmh3.hash(val) % N`. -/
structure NpMatrix where
  rows : ℕ
  cols : ℕ
  entry : ℕ → ℤ → ℤ

/-- Numpy broadcast compatibility of one axis: dimensions are compatible
when they are equal or either is 1. -/
def compatDim (a b : ℕ) : Bool :=
  a == b || a == 1 || b == 1

/-- Broadcast row index: an axis of extent 1 is repeated. -/
def bIdx (d i : ℕ) : ℕ :=
  if d = 1 then 0 else i

/-- Broadcast column index (column indices are `ℤ`). -/
def bIdxZ (d : ℕ) (k : ℤ) : ℤ :=
  if d = 1 then 0 else k

/-- Numpy elementwise product `tableA * tableB` on 2-D arrays, with
broadcasting; shape-incompatible operands raise `ValueError`, modelled
as `none`. -/
def npMul (A B : NpMatrix) : Option NpMatrix :=
  if compatDim A.rows B.rows && compatDim A.cols B.cols then
    some ⟨max A.rows B.rows, max A.cols B.cols,
      fun j k =>
        A.entry (bIdx A.rows j) (bIdxZ A.cols k) *
        B.entry (bIdx B.rows j) (bIdxZ B.cols k)⟩
  else
    none

/-- Numpy `.sum(axis=1)`: the list of row sums. -/
def npSumAxis1 (A : NpMatrix) : List ℤ :=
  (List.range A.rows).map fun j =>
    ((List.range A.cols).map fun k => A.entry j (k : ℤ)).sum

/-- `_dotProduct(tableA, tableB)` of `BinaryClassification` and of
`classifier` (identical bodies): `(tableA * tableB).sum(axis=1).min()`.
Numpy `.min()` of an empty array raises `ValueError`, modelled as
`none`, as is a broadcast failure in the product. -/
def dotProduct (tableA tableB : NpMatrix) : Option ℤ :=
  (npMul tableA tableB).bind fun C => (npSumAxis1 C).min?

/-- The `CountMinSketch` object: fields `N` (`indexes`, the width),
`M` (`hashfuncs`, the depth), `seeds`, `hashes` (the list of closures
built by `_genhash`), and the `M × N` counter `table`. -/
structure CountMinSketch (α : Type) where
  hashPrim : α → ℤ → ℤ
  N : ℕ
  M : ℕ
  seeds : List ℤ
  hashes : List (α → ℤ)
  table : ℕ → ℤ → ℤ

variable {α : Type}

/-- `_genhash(seed)`: the closure `val ↦ mmh3.hash(val, seed) % N`.
Python `%` on ints is `Int.emod` (result in `[0, N)` for `N > 0`). -/
def genhash (hashPrim : α → ℤ → ℤ) (N : ℕ) (seed : ℤ) : α → ℤ :=
  fun val => hashPrim val seed % (N : ℤ)

/-- `self.hashes[ix](val)`: the `ix`-th stored hash closure applied to a
token (the list always has length `M`; out-of-range reads never occur). -/
def hashOf (s : CountMinSketch α) (ix : ℕ) (val : α) : ℤ :=
  (s.hashes.getD ix fun _ => 0) val

/-- `add(val)`: `for ix in range(0, self.M): self.table[ix, self.hashes[ix](val)] += 1`,
embedded as a fold over `range M` of single-cell increments. -/
def add (s : CountMinSketch α) (val : α) : CountMinSketch α :=
  { s with
    table := (List.range s.M).foldl
      (fun t ix => fun j k =>
        if j = ix ∧ k = hashOf s ix val then t j k + 1 else t j k)
      s.table }

/-- `__init__(self, seqlist=None, indexes=2**8, hashfuncs=2**3)`:
`N := indexes`, `M := hashfuncs`, `seeds := np.arange(hashfuncs)`,
`table := np.zeros((M, N))`, `hashes := [_genhash(seed) for seed in seeds]`,
then every value of `seqlist` is `add`ed in order (`seqlist=None` is the
empty bulk load). -/
def init (hashPrim : α → ℤ → ℤ) (seqlist : List α)
    (indexes : ℕ) (hashfuncs : ℕ) : CountMinSketch α :=
  let seeds := (List.range hashfuncs).map Int.ofNat
  let base : CountMinSketch α :=
    { hashPrim := hashPrim
      N := indexes
      M := hashfuncs
      seeds := seeds
      hashes := seeds.map fun seed => genhash hashPrim indexes seed
      table := fun _ _ => 0 }
  seqlist.foldl add base

/-- `timed_update` / bulk feeding: `add` each value of a list in order. -/
def updates (s : CountMinSketch α) (toks : List α) : CountMinSketch α :=
  toks.foldl add s

/-- `estimate(self, value)` as it stands in the notebook: an unfilled
TODO.  The body builds `results = []`, runs `for ix in range(0, M)` —
where `M` is an unbound global name, so the call raises `NameError`
before producing any number — with a `pass` body, and falls off the end
(which would return `None`).  No estimate value is ever computed. -/
def estimate (s : CountMinSketch α) (value : α) : Except String ℤ :=
  Except.error "NameError: name M is not defined"

/-- Modelled from the spec (the notebook's `estimate` is an unfilled
TODO; the markdown cell gives `Q(i) = min_j count[j, h_j(i)]`):
`pointQuery(token)` returns the minimum over rows `j` of
`table[j, hash_j(token)]` (0 for a degenerate depth-0 sketch). -/
def pointQuery (s : CountMinSketch α) (value : α) : ℤ :=
  (((List.range s.M).map fun ix => s.table ix (hashOf s ix value)).min?).getD 0

/-- `self.table` viewed as the numpy array of shape `(M, N)`. -/
def npTable (s : CountMinSketch α) : NpMatrix :=
  ⟨s.M, s.N, s.table⟩

/-- `BinaryClassification(A, B)`: holds the two reference sketches. -/
structure BinaryClassification (α : Type) where
  streamA : CountMinSketch α
  streamB : CountMinSketch α

/-- The class label printed by `BinaryClassification.classify`. -/
inductive ClassLabel
  | A
  | B
deriving DecidableEq, Repr

/-- `classify(subsketch)`: `x := _dotProduct(subsketch.table, streamA.table)`,
`y := _dotProduct(subsketch.table, streamB.table)`; reports class A when
`x > y`, class B otherwise (the label is printed; modelled as the returned
value).  A `ValueError` escaping `_dotProduct` propagates (`none`). -/
def classify (bc : BinaryClassification α) (subsketch : CountMinSketch α) :
    Option ClassLabel :=
  match dotProduct (npTable subsketch) (npTable bc.streamA),
        dotProduct (npTable subsketch) (npTable bc.streamB) with
  | some x, some y => some (if x > y then ClassLabel.A else ClassLabel.B)
  | _, _ => none

/-!
## Dyadic range estimator (spec-modelled)

The notebook only documents range queries in markdown ("To accurately
calculate a range query, log(n) sketches must be kept; one for each set
of dyadic ranges spanning 1..n"); no code implements them.  The
definitions below are modelled from the spec: level `i` partitions the
domain into blocks of size `2^i`, block `b` of level `i` covering
positions `[b·2^i, (b+1)·2^i)`; `rangeQuery(l, r)` decomposes `[l, r]`
into the standard minimal disjoint dyadic blocks (greedily taking, at
the left end `l`, the largest aligned block fitting inside `[l, r]`),
issues `pointQuery` for each block id on that block's level and sums. -/

/-- Modelled from the spec: the level of the largest dyadic block that
starts exactly at `l` (alignment `l % 2^i = 0`) and fits inside `[l, r]`. -/
def levelOf (l r : ℕ) : ℕ :=
  Nat.findGreatest (fun i => l % 2 ^ i = 0 ∧ l + 2 ^ i ≤ r + 1) (r + 1 - l)

/-- Modelled from the spec: the minimal disjoint dyadic decomposition of
`[l, r]` as a list of `(level, block id)` pairs, greedy from the left. -/
def dyadicDecompose (l r : ℕ) : List (ℕ × ℕ) :=
  if h : l ≤ r then
    let i := levelOf l r
    (i, l / 2 ^ i) :: dyadicDecompose (l + 2 ^ i) r
  else
    []
termination_by r + 1 - l
decreasing_by
  have hpow : 0 < 2 ^ levelOf l r := Nat.pos_pow_of_pos _ (by omega)
  omega

/-- Modelled from the spec: a `DyadicRangeEstimator` for domain `[1, n]`
owns one sketch per dyadic level; block ids are the tokens. -/
structure DyadicRangeEstimator where
  n : ℕ
  levels : ℕ → CountMinSketch ℕ

/-- Modelled from the spec: `rangeQuery(l, r)` sums, over the dyadic
decomposition of `[l, r]`, the `pointQuery` of each block id on the
sketch of that block's level. -/
def rangeQuery (est : DyadicRangeEstimator) (l r : ℕ) : ℤ :=
  ((dyadicDecompose l r).map fun p => pointQuery (est.levels p.1) p.2).sum

/-- The positions covered by block `b` of level `i`:
`[b·2^i, b·2^i + 2^i)`. -/
def blockPositions (p : ℕ × ℕ) : List ℕ :=
  List.range' (p.2 * 2 ^ p.1) (2 ^ p.1)

/-! ## Basic lemmas about `add`, `updates` and `init` -/

theorem add_hashes (s : CountMinSketch α) (val : α) :
    (add s val).hashes = s.hashes := rfl

theorem add_M (s : CountMinSketch α) (val : α) : (add s val).M = s.M := rfl

theorem add_N (s : CountMinSketch α) (val : α) : (add s val).N = s.N := rfl

/-- Closed form of the loop in `add`: exactly the cell
`(j, hash_j(val))` of each row `j < M` gains 1; every other cell is
untouched. -/
theorem add_table (s : CountMinSketch α) (val : α) (j : ℕ) (k : ℤ) :
    (add s val).table j k =
      s.table j k + (if j < s.M ∧ k = hashOf s j val then 1 else 0) := by
  show ((List.range s.M).foldl _ s.table) j k = _
  have main : ∀ (m : ℕ) (t : ℕ → ℤ → ℤ),
      ((List.range m).foldl
        (fun t ix => fun j' k' =>
          if j' = ix ∧ k' = hashOf s ix val then t j' k' + 1 else t j' k') t) j k
      = t j k + (if j < m ∧ k = hashOf s j val then 1 else 0) := by
    intro m
    induction m with
    | zero => intro t; simp
    | succ m ih =>
      intro t
      rw [List.range_succ, List.foldl_append, List.foldl_cons, List.foldl_nil]
      rw [ih t]
      by_cases hj : j = m
      · subst hj
        simp only [true_and, Nat.lt_irrefl, false_and, if_false, add_zero,
          Nat.lt_succ_self]
        by_cases hk : k = hashOf s j val
        · simp [hk]
        · simp [hk]
      · have hlt : (j < m + 1) ↔ (j < m) := by omega
        simp [hj, hlt]
  exact main s.M s.table

/-- `updates` leaves every field but the table unchanged. -/
theorem updates_hashes (s : CountMinSketch α) (toks : List α) :
    (updates s toks).hashes = s.hashes ∧ (updates s toks).M = s.M ∧
      (updates s toks).N = s.N := by
  induction toks generalizing s with
  | nil => exact ⟨rfl, rfl, rfl⟩
  | cons t ts ih =>
    simpa [updates, List.foldl_cons] using ih (add s t)

/-- One `add` never decreases any cell. -/
theorem add_table_mono (s : CountMinSketch α) (val : α) (j : ℕ) (k : ℤ) :
    s.table j k ≤ (add s val).table j k := by
  rw [add_table]
  split <;> omega

/-- Cells stay non-negative across any sequence of `add`s. -/
theorem updates_table_nonneg (s : CountMinSketch α) (toks : List α)
    (h : ∀ j k, 0 ≤ s.table j k) : ∀ j k, 0 ≤ (updates s toks).table j k := by
  induction toks generalizing s with
  | nil => exact h
  | cons t ts ih =>
    intro j k
    exact ih (add s t)
      (fun j' k' => le_trans (h j' k') (add_table_mono s t j' k')) j k

/-- The table of a freshly constructed sketch with bulk load `seqlist`
is the result of `updates` from the all-zero table. -/
theorem init_eq_updates (hashPrim : α → ℤ → ℤ) (seqlist : List α)
    (indexes hashfuncs : ℕ) :
    init hashPrim seqlist indexes hashfuncs =
      updates (init hashPrim [] indexes hashfuncs) seqlist := rfl

/-- The hash closures a constructed sketch carries: row `j` hashes with
seed `j`. -/
theorem init_hashOf (hashPrim : α → ℤ → ℤ) (seqlist : List α)
    (indexes hashfuncs : ℕ) (j : ℕ) (hj : j < hashfuncs) (val : α) :
    hashOf (init hashPrim seqlist indexes hashfuncs) j val =
      hashPrim val (j : ℤ) % (indexes : ℤ) := by
  have hh : (init hashPrim seqlist indexes hashfuncs).hashes =
      ((List.range hashfuncs).map Int.ofNat).map
        (fun seed => genhash hashPrim indexes seed) := by
    rw [init_eq_updates]
    exact (updates_hashes _ _).1
  rw [hashOf, hh, List.map_map]
  rw [List.getD_eq_getElem?_getD, List.getElem?_map, List.getElem?_range hj]
  rfl

/-! ## Concrete instances used by witnesses -/

/-- A concrete stand-in for the external `mmh3.hash` primitive. -/
def zeroHash : String → ℤ → ℤ := fun _ _ => 0

/-- A small concrete sketch (width 4, depth 2, empty bulk load). -/
def wsketch : CountMinSketch String := init zeroHash [] 4 2

/-! ## Claims about the sketch proper -/

/-- C1 (code bug): the notebook documents the point query
`Q(i) = min_j count[j, h_j(i)]`, but `estimate` is an unfilled TODO — it
loops over an unbound global `M` with a `pass` body, so a call raises
`NameError` and never yields a number.  On the failing input (default
sketch, one `add("A")`, then `estimate("A")`) the code produces no
estimate while the documented point query returns 1. -/
theorem estimate_is_unimplemented :
    estimate (add (init zeroHash [] 256 8) "A") "A" =
        Except.error "NameError: name M is not defined" ∧
      pointQuery (add (init zeroHash [] 256 8) "A") "A" = 1 :=
  ⟨rfl, by decide⟩

/-- C2: `add` with the (only, unit) weight increments, for each row
`j < M`, exactly the cell `[j, hash_j(val)]` by 1 and leaves every cell
`[j, k]` with `k ≠ hash_j(val)` unchanged. -/
theorem update_unit_weight_frame (s : CountMinSketch α) (val : α) (j : ℕ)
    (hj : j < s.M) :
    (add s val).table j (hashOf s j val) = s.table j (hashOf s j val) + 1 ∧
      ∀ k : ℤ, k ≠ hashOf s j val → (add s val).table j k = s.table j k := by
  constructor
  · rw [add_table]
    simp [hj]
  · intro k hk
    rw [add_table]
    simp [hk]

/-- Witness for C2 at a concrete sketch, token and row. -/
theorem update_unit_weight_frame_witness :
    0 < wsketch.M ∧
      ((add wsketch "ab").table 0 (hashOf wsketch 0 "ab") =
          wsketch.table 0 (hashOf wsketch 0 "ab") + 1 ∧
        ∀ k : ℤ, k ≠ hashOf wsketch 0 "ab" →
          (add wsketch "ab").table 0 k = wsketch.table 0 k) :=
  ⟨by decide, update_unit_weight_frame wsketch "ab" 0 (by decide)⟩

/-- C4 counterexample: no `(ε, δ)` constructor exists — the only
constructor takes the dimensions directly, and at the notebook's
default-size call the width is 256, not `⌈e/ε⌉` for the spec's own
representative `ε = 0.1` (which would give 28). -/
theorem width_not_sized_from_error_params :
    (init zeroHash [] 256 8).N ≠ ⌈Real.exp 1 / (1 / 10 : ℝ)⌉₊ := by
  have h1 : (init zeroHash [] 256 8).N = 256 := rfl
  have he : Real.exp 1 < 2.7182818286 := Real.exp_one_lt_d9
  have h2 : Real.exp 1 / (1 / 10 : ℝ) ≤ (28 : ℕ) := by
    rw [div_le_iff₀ (by norm_num)]
    push_cast
    nlinarith [he]
  have h3 : ⌈Real.exp 1 / (1 / 10 : ℝ)⌉₊ ≤ 28 := Nat.ceil_le.mpr h2
  omega

/-- C4 (amended): construction takes the dimensions directly —
`indexes` is the width `w` (default `2^8`), `hashfuncs` the depth `d`
(default `2^3`) — allocating a `d × w` all-zero table with seeds
`0..d-1`; no error-parameter form exists. -/
theorem init_direct_dimensions (hashPrim : α → ℤ → ℤ) (w d : ℕ) :
    (init hashPrim [] w d).N = w ∧ (init hashPrim [] w d).M = d ∧
      (init hashPrim [] w d).seeds = (List.range d).map Int.ofNat ∧
      ∀ (j : ℕ) (k : ℤ), (init hashPrim [] w d).table j k = 0 :=
  ⟨rfl, rfl, rfl, fun _ _ => rfl⟩

/-- C6: starting from a freshly constructed sketch, after any sequence
of updates every cell is non-negative, and a further update never
decreases any cell. -/
theorem cells_nonneg_and_monotone (hashPrim : α → ℤ → ℤ)
    (seqlist toks : List α) (indexes hashfuncs : ℕ) (val : α) (j : ℕ) (k : ℤ) :
    0 ≤ (updates (init hashPrim seqlist indexes hashfuncs) toks).table j k ∧
      (updates (init hashPrim seqlist indexes hashfuncs) toks).table j k ≤
        (add (updates (init hashPrim seqlist indexes hashfuncs) toks) val).table
          j k := by
  have hinit : ∀ (j : ℕ) (k : ℤ),
      0 ≤ (init hashPrim seqlist indexes hashfuncs).table j k := by
    rw [init_eq_updates]
    exact updates_table_nonneg _ _ fun _ _ => le_of_eq rfl
  exact ⟨updates_table_nonneg _ toks hinit j k, add_table_mono _ val j k⟩

/-- C7: for every token and every row `j < d` of a constructed sketch
with positive width, the hash index lies in `[0, w)`; hashing is a total
function of the token. -/
theorem hash_index_in_range (hashPrim : α → ℤ → ℤ) (seqlist : List α)
    (indexes hashfuncs : ℕ) (j : ℕ) (val : α)
    (hN : 0 < indexes) (hj : j < hashfuncs) :
    0 ≤ hashOf (init hashPrim seqlist indexes hashfuncs) j val ∧
      hashOf (init hashPrim seqlist indexes hashfuncs) j val < (indexes : ℤ) := by
  rw [init_hashOf hashPrim seqlist indexes hashfuncs j hj val]
  constructor
  · exact Int.emod_nonneg _ (by exact_mod_cast hN.ne')
  · exact Int.emod_lt_of_pos _ (by exact_mod_cast hN)

/-- Witness for C7 at a concrete sketch, row and token. -/
theorem hash_index_in_range_witness :
    0 ≤ hashOf (init zeroHash [] 4 2) 1 "xy" ∧
      hashOf (init zeroHash [] 4 2) 1 "xy" < (4 : ℤ) :=
  hash_index_in_range zeroHash [] 4 2 1 "xy" (by decide) (by decide)

/-- C8: two sketches built with the same dimensions (hence the same
seeds `0..d-1` and the same hash closures) and fed the same token
sequence in the same order have tables equal cell for cell. -/
theorem identical_streams_identical_tables (hashPrim : α → ℤ → ℤ)
    (indexes hashfuncs : ℕ) (toks : List α) (s1 s2 : CountMinSketch α)
    (h1 : s1 = updates (init hashPrim [] indexes hashfuncs) toks)
    (h2 : s2 = updates (init hashPrim [] indexes hashfuncs) toks) :
    ∀ (j : ℕ) (k : ℤ), s1.table j k = s2.table j k := by
  subst h1
  subst h2
  intro j k
  rfl

/-- Witness for C8 at concrete parameters, a concrete stream and a
concrete cell. -/
theorem identical_streams_identical_tables_witness :
    (updates (init zeroHash [] 4 2) ["a", "b", "a"]).table 0 0 =
      (updates (init zeroHash [] 4 2) ["a", "b", "a"]).table 0 0 :=
  identical_streams_identical_tables zeroHash 4 2 ["a", "b", "a"] _ _ rfl rfl 0 0

/-! ## The inner-product estimator -/

theorem compatDim_self (a : ℕ) : compatDim a a = true := by
  simp [compatDim]

theorem bIdx_of_lt (n j : ℕ) (h : j < n) : bIdx n j = j := by
  unfold bIdx
  split <;> omega

theorem bIdxZ_of_lt (n k : ℕ) (h : k < n) : bIdxZ n (k : ℤ) = (k : ℤ) := by
  unfold bIdxZ
  split <;> omega

/-- On equal-shape operands the numpy pipeline
`(tableA * tableB).sum(axis=1).min()` is the minimum over rows of the
row-wise dot products. -/
theorem dotProduct_eq_min_row_dot (A B : NpMatrix) (hr : A.rows = B.rows)
    (hc : A.cols = B.cols) :
    dotProduct A B =
      ((List.range A.rows).map fun j =>
        ((List.range A.cols).map fun k =>
          A.entry j (k : ℤ) * B.entry j (k : ℤ)).sum).min? := by
  rw [dotProduct, npMul, hr, hc]
  simp only [compatDim_self, Bool.and_self, if_true, Option.some_bind]
  apply congrArg List.min?
  rw [npSumAxis1]
  simp only [Nat.max_self]
  apply List.map_congr_left
  intro j hj
  apply congrArg List.sum
  apply List.map_congr_left
  intro k hk
  rw [bIdx_of_lt _ _ (List.mem_range.mp hj)]
  have hk' : ∃ m : ℕ, m < B.cols ∧ k = (m : ℤ) := by
    simpa using hk
  obtain ⟨m, hm, rfl⟩ := hk'
  rw [bIdxZ_of_lt _ _ hm]

/-- C3: for two sketches of identical dimensions `(d, w)` (with `d > 0`
so numpy's `.min()` is defined), the inner-product estimate is the
minimum over rows `j` of `Σ_k A.table[j,k] * B.table[j,k]`. -/
theorem inner_product_is_min_row_dot (A B : CountMinSketch α)
    (hd : A.M = B.M) (hw : A.N = B.N) (hpos : 0 < A.M) :
    dotProduct (npTable A) (npTable B) =
        ((List.range A.M).map fun j =>
          ((List.range A.N).map fun k =>
            A.table j (k : ℤ) * B.table j (k : ℤ)).sum).min? ∧
      (((List.range A.M).map fun j =>
          ((List.range A.N).map fun k =>
            A.table j (k : ℤ) * B.table j (k : ℤ)).sum).min?).isSome := by
  constructor
  · exact dotProduct_eq_min_row_dot (npTable A) (npTable B) hd hw
  · rw [Option.isSome_iff_ne_none]
    rw [Ne, List.min?_eq_none_iff]
    simp [List.range_eq_nil]
    omega

/-- Witness for C3 at two concrete equal-dimension sketches. -/
theorem inner_product_is_min_row_dot_witness :
    dotProduct (npTable wsketch) (npTable wsketch) =
        ((List.range wsketch.M).map fun j =>
          ((List.range wsketch.N).map fun k =>
            wsketch.table j (k : ℤ) * wsketch.table j (k : ℤ)).sum).min? ∧
      (((List.range wsketch.M).map fun j =>
          ((List.range wsketch.N).map fun k =>
            wsketch.table j (k : ℤ) * wsketch.table j (k : ℤ)).sum).min?).isSome :=
  inner_product_is_min_row_dot wsketch wsketch rfl rfl (by decide)

/-- C5 counterexample: the estimator performs no dimension validation —
for these two sketches of different depths (a 1×2 table against a 2×2
table, each bulk-loaded) numpy broadcasting silently computes and
returns the estimate 2 instead of raising anything before computing. -/
theorem mismatched_dims_still_estimate :
    (init zeroHash ["a"] 2 1).M ≠ (init zeroHash ["a", "b"] 2 2).M ∧
      dotProduct (npTable (init zeroHash ["a"] 2 1))
          (npTable (init zeroHash ["a", "b"] 2 2)) = some 2 := by
  constructor
  · decide
  · decide

/-- C5 (amended): the estimator never raises `InvalidArgument`; the only
way it fails to produce an estimate is numpy itself — a broadcast
failure of `tableA * tableB` (`ValueError`) or an empty row axis
(`.min()` of an empty array) — and on every broadcast-compatible pair of
non-empty tables, including dimension-mismatched ones, it returns an
estimate. -/
theorem dotProduct_none_characterisation (A B : NpMatrix) :
    dotProduct A B = none ↔
      (compatDim A.rows B.rows && compatDim A.cols B.cols) = false ∨
        max A.rows B.rows = 0 := by
  rw [dotProduct, npMul]
  cases hb : compatDim A.rows B.rows && compatDim A.cols B.cols with
  | false => simp [hb]
  | true =>
    simp only [hb, if_true, Option.some_bind, Bool.true_eq_false, false_or]
    rw [List.min?_eq_none_iff, npSumAxis1]
    simp [List.range_eq_nil]

/-! ## Binary classification -/

/-- C10: when both inner-product estimates are defined, `classify`
reports class A exactly when the estimate against A is strictly greater
than the estimate against B, and reports class B when they are equal. -/
theorem classify_reports_argmax (bc : BinaryClassification α)
    (sub : CountMinSketch α) (x y : ℤ)
    (hx : dotProduct (npTable sub) (npTable bc.streamA) = some x)
    (hy : dotProduct (npTable sub) (npTable bc.streamB) = some y) :
    (classify bc sub = some ClassLabel.A ↔ x > y) ∧
      (x = y → classify bc sub = some ClassLabel.B) := by
  have hcl : classify bc sub =
      some (if x > y then ClassLabel.A else ClassLabel.B) := by
    unfold classify
    rw [hx, hy]
  rw [hcl]
  by_cases hxy : x > y
  · refine ⟨by simp [hxy], fun h => absurd hxy (by omega)⟩
  · simp [hxy]

/-- Witness for C10 at a concrete classifier and subsketch. -/
theorem classify_reports_argmax_witness :
    (classify ⟨wsketch, wsketch⟩ wsketch = some ClassLabel.A ↔ (0 : ℤ) > 0) ∧
      ((0 : ℤ) = 0 → classify ⟨wsketch, wsketch⟩ wsketch = some ClassLabel.B) :=
  classify_reports_argmax ⟨wsketch, wsketch⟩ wsketch 0 0 (by decide) (by decide)

/-! ## The dyadic range estimator -/

/-- The candidate property survives `Nat.findGreatest` for every bound,
since level 0 always satisfies it when `l ≤ r`. -/
theorem levelOf_holds (l r : ℕ) (h : l ≤ r) : ∀ b : ℕ,
    l % 2 ^ Nat.findGreatest (fun i => l % 2 ^ i = 0 ∧ l + 2 ^ i ≤ r + 1) b = 0 ∧
      l + 2 ^ Nat.findGreatest (fun i => l % 2 ^ i = 0 ∧ l + 2 ^ i ≤ r + 1) b ≤
        r + 1 := by
  intro b
  induction b with
  | zero =>
    constructor
    · simp only [Nat.findGreatest_zero, pow_zero]
      omega
    · simp only [Nat.findGreatest_zero, pow_zero]
      omega
  | succ b ih =>
    rw [Nat.findGreatest_succ]
    split
    · next hpos => simpa using hpos
    · exact ih

/-- The greedily chosen level is a valid candidate: the block starting
at `l` is aligned and fits inside `[l, r]`. -/
theorem levelOf_spec (l r : ℕ) (h : l ≤ r) :
    l % 2 ^ levelOf l r = 0 ∧ l + 2 ^ levelOf l r ≤ r + 1 :=
  levelOf_holds l r h (r + 1 - l)

/-- The greedy dyadic decomposition tiles `[l, r]` exactly: the
positions of its blocks, in order, are `l, l+1, ..., r` — so the blocks
are pairwise disjoint and their union is `[l, r]`. -/
theorem dyadicDecompose_cover :
    ∀ (k l r : ℕ), r + 1 - l ≤ k → l ≤ r →
      (dyadicDecompose l r).flatMap blockPositions =
        List.range' l (r + 1 - l) := by
  intro k
  induction k with
  | zero =>
    intro l r hk h
    omega
  | succ k ih =>
    intro l r hk h
    obtain ⟨hmod, hle⟩ := levelOf_spec l r h
    have hp : 0 < 2 ^ levelOf l r := Nat.pos_pow_of_pos _ (by omega)
    rw [dyadicDecompose]
    rw [dif_pos h]
    rw [List.flatMap_cons]
    have hbp : blockPositions (levelOf l r, l / 2 ^ levelOf l r) =
        List.range' l (2 ^ levelOf l r) := by
      rw [blockPositions]
      congr 1
      exact Nat.div_mul_cancel (Nat.dvd_of_mod_eq_zero hmod)
    rw [hbp]
    by_cases h2 : l + 2 ^ levelOf l r ≤ r
    · rw [ih (l + 2 ^ levelOf l r) r (by omega) h2]
      rw [List.range'_append_1]
      congr 1
      omega
    · rw [dyadicDecompose]
      rw [dif_neg h2]
      have h3 : 2 ^ levelOf l r = r + 1 - l := by omega
      rw [h3]
      simp

/-- C9 (spec-modelled; the notebook has no range-query code): for every
interval `1 ≤ l ≤ r ≤ n`, `rangeQuery(l, r)` returns the sum of the
`pointQuery` results taken, for each block of the dyadic decomposition
of `[l, r]`, on the sketch of that block's level; and that decomposition
is a genuine disjoint dyadic tiling of `[l, r]` (its blocks' positions,
concatenated, are exactly `l..r`). -/
theorem range_query_sums_dyadic_point_queries (est : DyadicRangeEstimator)
    (l r : ℕ) (h1 : 1 ≤ l) (h2 : l ≤ r) (h3 : r ≤ est.n) :
    rangeQuery est l r =
        ((dyadicDecompose l r).map fun p =>
          pointQuery (est.levels p.1) p.2).sum ∧
      (dyadicDecompose l r).flatMap blockPositions =
        List.range' l (r + 1 - l) :=
  ⟨rfl, dyadicDecompose_cover (r + 1 - l) l r (le_refl _) h2⟩

/-- A concrete dyadic range estimator over domain `[1, 16]`. -/
def est16 : DyadicRangeEstimator :=
  ⟨16, fun _ => init (fun v s => (v : ℤ) + s) [] 8 2⟩

/-- Witness for C9 on the concrete interval `[3, 9]` of `[1, 16]`. -/
theorem range_query_sums_dyadic_point_queries_witness :
    rangeQuery est16 3 9 =
        ((dyadicDecompose 3 9).map fun p =>
          pointQuery (est16.levels p.1) p.2).sum ∧
      (dyadicDecompose 3 9).flatMap blockPositions =
        List.range' 3 (9 + 1 - 3) :=
  range_query_sums_dyadic_point_queries est16 3 9 (by decide) (by decide)
    (by decide)

end MinCountSketch
